import Mathlib

/-!
Verification of `collections-rust` against its specification.

Part 1 embeds `src/concurrent-queue/src/lib.rs` (`SelkirkLinkedQueue`).
The source of that file is a scaffold: `dequeue` returns `Err(())`
unconditionally, and `enqueue` installs a freshly allocated, unlinked node
directly into the `tail` cursor by compare-and-set, never touching any
node's `next` field.  We embed the node arena as a list indexed by node
ids; `next` pointers are `Option Nat` (none is the null pointer).  The
embedding gives the sequential semantics of each operation (a lone thread,
so the compare-and-set in `enqueue` always succeeds: the expected value is
the value just loaded).

Part 2 embeds `src/src/queue/priority_queue/mod.rs` (`PriorityQueue`), a
sequential binary max-heap over a vector, and proves functional
correctness of `push`/`poll` and the heapsort round trip of its `Iterator`
instance.  Rust vector indexing panics when out of bounds; operations are
therefore embedded as `Option`-valued functions where `none` marks a
panic, and we prove the operations never panic on states satisfying the
representation invariant.
-/

namespace ConcurrentQueue

/-- Node of the linked queue: one payload and an atomic nullable next link
(`Node<T>` in the source).  `next` holds a node id of the arena. -/
structure Node (T : Type) where
  item : T
  next : Option Nat
deriving DecidableEq, Repr

/-- Node::new_empty from the source: default payload, null next. -/
def Node.new_empty (T : Type) [Inhabited T] : Node T :=
  { item := default, next := none }

/-- Node::new from the source: given payload, null next. -/
def Node.new {T : Type} (elem : T) : Node T :=
  { item := elem, next := none }

/-- State of a `SelkirkLinkedQueue<T>`: the arena of all nodes ever
allocated (node ids are list indices; the model never frees nodes, which
is sound because the source never unlinks or drops a reachable node), and
the two atomic cursors `head` and `tail` holding node ids. -/
structure SelkirkLinkedQueue (T : Type) where
  nodes : List (Node T)
  head : Nat
  tail : Nat
deriving DecidableEq, Repr

namespace SelkirkLinkedQueue

/-- SelkirkLinkedQueue::new from the source: one sentinel node
(`Node::new_empty`), with `head` and `tail` both pointing at it (the
`clone` of the atomic copies the pointer). -/
def new (T : Type) [Inhabited T] : SelkirkLinkedQueue T :=
  { nodes := [Node.new_empty T], head := 0, tail := 0 }

/-- SelkirkLinkedQueue::enqueue from the source, sequential semantics.
The source allocates `Node::new(elem)` and performs
`self.tail.compare_and_set(self.tail.load(..), Owned::new(new_node), ..)`:
it swings the `tail` cursor itself to the fresh node.  No `next` field of
any existing node is written, and `head` is untouched.  Sequentially the
compare-and-set succeeds (the expected value was just loaded). -/
def enqueue {T : Type} (q : SelkirkLinkedQueue T) (elem : T) :
    SelkirkLinkedQueue T :=
  { nodes := q.nodes ++ [Node.new elem], head := q.head, tail := q.nodes.length }

/-- SelkirkLinkedQueue::dequeue from the source: `Err(())` unconditionally,
with no state change.  `Except.error ()` is the empty signal. -/
def dequeue {T : Type} (q : SelkirkLinkedQueue T) :
    Except Unit T × SelkirkLinkedQueue T :=
  (Except.error (), q)

/-- Chain of node ids obtained by starting at node id `i` and following
`next` links, with explicit fuel so the traversal is total even on
ill-formed states.  A dangling id stops the chain. -/
def chainFrom {T : Type} (q : SelkirkLinkedQueue T) : Nat → Nat → List Nat
  | 0, _ => []
  | fuel + 1, i =>
    match q.nodes.get? i with
    | none => []
    | some nd =>
      i :: (match nd.next with
            | none => []
            | some j => chainFrom q fuel j)

/-- Node ids reachable from the `head` cursor by following `next` links.
Fuel `q.nodes.length` suffices for every acyclic state. -/
def reachableFromHead {T : Type} (q : SelkirkLinkedQueue T) : List Nat :=
  chainFrom q q.nodes.length q.head

/-- Modelled from the spec: `approximate_size()` is absent from the source;
the spec (sections 4.3 and 6) defines it as a best-effort count obtained by
a full traversal of the reachable chain from `head`; the sentinel at `head`
itself carries no element, so the count is the number of chain nodes after
it. -/
def approximate_size {T : Type} (q : SelkirkLinkedQueue T) : Nat :=
  ((reachableFromHead q).drop 1).length

/-- Modelled from the spec: `iterate()` is absent from the source; the
spec (sections 4.3 and 6) defines iteration as the lazily traversed
sequence of elements reachable from `head` (the `head` sentinel excluded),
read through the `next` chain. -/
def iterate {T : Type} (q : SelkirkLinkedQueue T) : List T :=
  ((reachableFromHead q).drop 1).filterMap fun i =>
    (q.nodes.get? i).map Node.item

end SelkirkLinkedQueue

end ConcurrentQueue

namespace priority_queue

/-- Free function `parent` of the priority-queue module. -/
def parent (child : Nat) : Nat :=
  (child - 1) / 2

/-- Free function `right_ch` of the priority-queue module. -/
def right_ch (p : Nat) : Nat :=
  p * 2 + 2

/-- Free function `left_ch` of the priority-queue module. -/
def left_ch (p : Nat) : Nat :=
  p * 2 + 1

/-- PriorityQueue from the source: a vector used as a binary max heap plus
the `next_index` counter field. -/
structure PriorityQueue (T : Type) where
  heap : List T
  next_index : Nat
deriving DecidableEq, Repr

/-- Vec::swap(a, b) from Rust: exchanges two elements, panicking (`none`)
when either index is out of bounds. -/
def listSwap {T : Type} (l : List T) (a b : Nat) : Option (List T) :=
  match l.get? a, l.get? b with
  | some x, some y => some ((l.set a y).set b x)
  | _, _ => none

/-- Loop body of `PriorityQueue::push`:
`while current != 0 && heap[current] > heap[parent(current)] { swap; current = parent(current) }`.
The argument `current` is the loop variable; `none` marks an out-of-bounds
panic of the Rust indexing. -/
def siftupLoop {T : Type} [LinearOrder T] (heap : List T) (current : Nat) :
    Option (List T) :=
  if current = 0 then some heap
  else
    match heap.get? current, heap.get? (parent current) with
    | some vc, some vp =>
      if vp < vc then
        match listSwap heap current (parent current) with
        | some h2 => siftupLoop h2 (parent current)
        | none => none
      else some heap
    | _, _ => none
termination_by current
decreasing_by
  simp only [parent]
  omega

namespace PriorityQueue

/-- PriorityQueue::new from the source: empty vector, `next_index` 0. -/
def new (T : Type) : PriorityQueue T :=
  { heap := [], next_index := 0 }

/-- PriorityQueue::with_capacity from the source: the capacity only
preallocates; the contents are empty, `next_index` 0. -/
def with_capacity (T : Type) (capacity : Nat) : PriorityQueue T :=
  { heap := [], next_index := 0 }

/-- PriorityQueue::push from the source: append `elem`, increment
`next_index`, and sift the new element up starting from the old
`next_index`. -/
def push {T : Type} [LinearOrder T] (q : PriorityQueue T) (elem : T) :
    Option (PriorityQueue T) :=
  match siftupLoop (q.heap ++ [elem]) q.next_index with
  | some h2 => some { heap := h2, next_index := q.next_index + 1 }
  | none => none

/-- PriorityQueue::len from the source. -/
def len {T : Type} (q : PriorityQueue T) : Nat :=
  q.heap.length

/-- PriorityQueue::is_empty from the source. -/
def is_empty {T : Type} (q : PriorityQueue T) : Bool :=
  q.heap.isEmpty

/-- PriorityQueue::peek from the source: `None` when empty, else a view of
`heap[0]`. -/
def peek {T : Type} (q : PriorityQueue T) : Option T :=
  q.heap.get? 0

/-- PriorityQueue::is_leaf from the source:
`index >= next_index / 2 && index < next_index`, with the state's
`next_index` passed explicitly. -/
def is_leaf (next_index index : Nat) : Bool :=
  decide (next_index / 2 ≤ index) && decide (index < next_index)

/-- Loop of `PriorityQueue::siftdown`, with the state's heap vector and
`next_index` passed explicitly (the source reads both through `self`).
Mirrors the short-circuit evaluation of
`right_ch < next_index && heap[left_ch] < heap[right_ch]`: the two child
reads happen only when `right_ch < next_index`; `none` marks an
out-of-bounds panic of the Rust indexing. -/
def siftdownLoop {T : Type} [LinearOrder T] (heap : List T)
    (next_index index : Nat) : Option (List T) :=
  if is_leaf next_index index then some heap
  else
    match (if right_ch index < next_index then
             match heap.get? (left_ch index), heap.get? (right_ch index) with
             | some vl, some vr => some (decide (vl < vr))
             | _, _ => none
           else some false) with
    | none => none
    | some true =>
      match hr : heap.get? (right_ch index), heap.get? index with
      | some vm, some vi =>
        if vm < vi then some heap
        else
          siftdownLoop ((heap.set (right_ch index) vi).set index vm)
            next_index (right_ch index)
      | _, _ => none
    | some false =>
      match hl : heap.get? (left_ch index), heap.get? index with
      | some vm, some vi =>
        if vm < vi then some heap
        else
          siftdownLoop ((heap.set (left_ch index) vi).set index vm)
            next_index (left_ch index)
      | _, _ => none
termination_by heap.length - index
decreasing_by
  · obtain ⟨h, -⟩ := List.get?_eq_some.mp hr
    simp only [List.length_set, right_ch] at h ⊢
    omega
  · obtain ⟨h, -⟩ := List.get?_eq_some.mp hl
    simp only [List.length_set, left_ch] at h ⊢
    omega

/-- PriorityQueue::siftdown from the source. -/
def siftdown {T : Type} [LinearOrder T] (q : PriorityQueue T)
    (start_index : Nat) : Option (List T) :=
  siftdownLoop q.heap q.next_index start_index

/-- PriorityQueue::poll from the source: `None` when empty; otherwise
decrement `next_index`, swap the root with position `next_index`, sift the
new root down unless `next_index` became 0, and pop the vector, returning
the popped element.  `none` (the outer layer) marks a Rust panic of
`Vec::swap` or of the indexing inside `siftdown`; the inner `Option T` is
the return value of poll. -/
def poll {T : Type} [LinearOrder T] (q : PriorityQueue T) :
    Option (Option T × PriorityQueue T) :=
  if q.is_empty then some (none, q)
  else
    match listSwap q.heap 0 (q.next_index - 1) with
    | none => none
    | some h1 =>
      match (if q.next_index - 1 ≠ 0 then
               siftdownLoop h1 (q.next_index - 1) 0
             else some h1) with
      | none => none
      | some h2 =>
        some (h2.getLast?, { heap := h2.dropLast, next_index := q.next_index - 1 })

/-- Iterator::next for PriorityQueue from the source: `self.poll()`. -/
def next {T : Type} [LinearOrder T] (q : PriorityQueue T) :
    Option (Option T × PriorityQueue T) :=
  q.poll

/-- Repeatedly calling the Iterator's `next` until it yields `None`,
collecting the produced elements: the semantics of `for elem in pq`.  The
fuel argument makes the loop total; a run that stops because the fuel is
exhausted (with the queue not yet empty) is distinguished as `none`, so a
`some` answer is exactly what the unbounded Rust loop produces. -/
def drainFuel {T : Type} [LinearOrder T] : Nat → PriorityQueue T → Option (List T)
  | 0, q => if q.is_empty then some [] else none
  | fuel + 1, q =>
    match q.next with
    | none => none
    | some (none, _) => some []
    | some (some x, q') =>
      match drainFuel fuel q' with
      | some out => some (x :: out)
      | none => none

end PriorityQueue

/-- Pushing a list of elements one by one (left to right) into a
priority queue. -/
def pushAll {T : Type} [LinearOrder T] (q : PriorityQueue T) :
    List T → Option (PriorityQueue T)
  | [] => some q
  | x :: xs =>
    match q.push x with
    | some q' => pushAll q' xs
    | none => none

/-- Max-heap ordering among the first `n` positions of the array: every
position `i` with `1 ≤ i < n` is bounded by its parent. -/
def heapUpTo {T : Type} [LinearOrder T] (l : List T) (n : Nat) : Prop :=
  ∀ i x y, 0 < i → i < n → l.get? i = some x → l.get? (parent i) = some y → x ≤ y

/-- Max-heap ordering of the whole array. -/
def isMaxHeap {T : Type} [LinearOrder T] (l : List T) : Prop :=
  heapUpTo l l.length

/-- Representation invariant of `PriorityQueue`: `next_index` equals the
vector length and the vector is a max heap. -/
def heapInv {T : Type} [LinearOrder T] (q : PriorityQueue T) : Prop :=
  q.next_index = q.heap.length ∧ isMaxHeap q.heap

/-- Intermediate state of the sift-up loop: the heap ordering holds at
every position other than `c`, and any child of `c` is additionally
bounded by `c`'s parent (so that moving the element at `c` up cannot break
the ordering below). -/
def almostHeapUp {T : Type} [LinearOrder T] (l : List T) (n c : Nat) : Prop :=
  (∀ i x y, 0 < i → i < n → i ≠ c →
    l.get? i = some x → l.get? (parent i) = some y → x ≤ y) ∧
  (∀ i x z, 0 < i → i < n → parent i = c → c ≠ 0 →
    l.get? i = some x → l.get? (parent c) = some z → x ≤ z)

/-- Intermediate state of the sift-down loop: the heap ordering holds at
every position whose parent is not `j`, and the children of `j` are
additionally bounded by `j`'s parent (so that moving the element at `j`
down cannot break the ordering above). -/
def almostHeapDown {T : Type} [LinearOrder T] (l : List T) (n j : Nat) : Prop :=
  (∀ i x y, 0 < i → i < n → parent i ≠ j →
    l.get? i = some x → l.get? (parent i) = some y → x ≤ y) ∧
  (∀ i x z, 0 < i → i < n → parent i = j → j ≠ 0 →
    l.get? i = some x → l.get? (parent j) = some z → x ≤ z)

end priority_queue

namespace ConcurrentQueue

open SelkirkLinkedQueue

/-- C1: the claim states dequeue returns the oldest live element whenever
one is present and the empty signal exactly when none is.  The code's
`dequeue` is the stub `Err(())`: on the queue obtained by enqueueing `1`
into a fresh queue — one live, never-dequeued element — it still returns
the empty signal and leaves the state unchanged, contradicting the claim
at this input. -/
theorem C1_dequeue_stub_returns_error_on_nonempty :
    ((new Int).enqueue 1).dequeue = (Except.error (), (new Int).enqueue 1) := by
  rfl

/-- C2: the claim states enqueue links the new node by a compare-and-set of
the true tail node's `next` field from null to the new node, making the
element reachable from `head`.  In the code, after `enqueue 1` on a fresh
queue the sentinel's `next` is still null, the arena holds two nodes, and
the chain reachable from `head` is just the sentinel `[0]`: the new node
(id 1) was installed only into the `tail` cursor and is not reachable from
`head`. -/
theorem C2_enqueue_does_not_link_next :
    ((((new Int).enqueue 1).nodes.get? 0).map Node.next = some none) ∧
    reachableFromHead ((new Int).enqueue 1) = [0] ∧
    ((new Int).enqueue 1).nodes.length = 2 ∧
    ((new Int).enqueue 1).tail = 1 := by
  refine ⟨rfl, rfl, rfl, rfl⟩

/-- C3: the claim's scenario enqueues 1, 2, 3 and expects the first dequeue
to return 1.  The code's first dequeue on that queue returns the empty
signal `Err(())` instead. -/
theorem C3_scenario_first_dequeue_errs :
    ((((new Int).enqueue 1).enqueue 2).enqueue 3).dequeue.1 =
      Except.error () := by
  rfl

/-- C4: the claim states every live (enqueued, never dequeued) node is
reachable from `head`.  After `enqueue 1` on a fresh queue, node id 1
holds the live element 1 (dequeue never removes anything), yet the set of
ids reachable from `head` is `[0]`, so the live node is unreachable. -/
theorem C4_live_node_unreachable_from_head :
    ((((new Int).enqueue 1).nodes.get? 1).map Node.item = some 1) ∧
    1 ∉ reachableFromHead ((new Int).enqueue 1) := by
  refine ⟨rfl, by decide⟩

/-- C5: the claim states that after creation there is at every instant a
unique node whose `next` is null (the true tail), reachable from `tail`.
After `enqueue 1` on a fresh queue the arena holds exactly two nodes, ids
0 and 1, and both have null `next`: no unique true tail exists, because
the code never linked the old tail's `next` to the new node. -/
theorem C5_no_unique_true_tail_after_enqueue :
    ((((new Int).enqueue 1).nodes.get? 0).map Node.next = some none) ∧
    ((((new Int).enqueue 1).nodes.get? 1).map Node.next = some none) ∧
    ((new Int).enqueue 1).nodes.length = 2 := by
  refine ⟨rfl, rfl, rfl⟩

/-- C6: a freshly created queue's dequeue immediately returns the empty
signal with the state unchanged (this is the code's behavior), its
approximate size is 0, and its iteration yields no elements (size and
iteration modelled from the spec, as the source does not implement them). -/
theorem C6_fresh_queue_empty (T : Type) [Inhabited T] :
    (new T).dequeue = (Except.error (), new T) ∧
    approximate_size (new T) = 0 ∧
    iterate (new T) = ([] : List T) := by
  refine ⟨rfl, rfl, rfl⟩

/-- C7: the claim states that in every mix of N enqueues and M successful
dequeues, the dequeues return exactly M distinct previously enqueued
elements.  In the code no dequeue ever succeeds: `dequeue` returns the
empty signal in every reachable or unreachable state whatsoever, so for
any M at least 1 the claimed executions do not exist and every enqueued
element is irrecoverable. -/
theorem C7_no_dequeue_ever_succeeds (T : Type)
    (q : SelkirkLinkedQueue T) : q.dequeue.1 = Except.error () := by
  rfl

/-- Witness for C7 at the concrete queue obtained by enqueueing 5. -/
theorem C7_no_dequeue_ever_succeeds_witness :
    ((new Int).enqueue 5).dequeue.1 = Except.error () :=
  C7_no_dequeue_ever_succeeds Int ((new Int).enqueue 5)

/-- Witness for C6 at the element type of the integers. -/
theorem C6_fresh_queue_empty_witness :
    (new Int).dequeue = (Except.error (), new Int) ∧
    approximate_size (new Int) = 0 ∧
    iterate (new Int) = ([] : List Int) :=
  C6_fresh_queue_empty Int

end ConcurrentQueue

namespace priority_queue

variable {T : Type} [LinearOrder T]

open PriorityQueue

theorem parent_lt {i : Nat} (h : 0 < i) : parent i < i := by
  simp only [parent]
  omega

theorem parent_eq_iff {i j : Nat} (h : 0 < i) :
    parent i = j ↔ i = left_ch j ∨ i = right_ch j := by
  simp only [parent, left_ch, right_ch]
  omega

theorem get?_some_of_lt {l : List T} {n : Nat} (h : n < l.length) :
    ∃ x, l.get? n = some x :=
  ⟨_, List.get?_eq_get h⟩

theorem lt_length_of_get?_some {l : List T} {n : Nat} {x : T}
    (h : l.get? n = some x) : n < l.length :=
  (List.get?_eq_some.mp h).1

theorem listSwap_some {l : List T} {a b : Nat} {x y : T}
    (ha : l.get? a = some x) (hb : l.get? b = some y) :
    listSwap l a b = some ((l.set a y).set b x) := by
  simp only [listSwap, ha, hb]

theorem swap_length (l : List T) (a b : Nat) (x y : T) :
    ((l.set a y).set b x).length = l.length := by
  simp [List.length_set]

theorem swap_get?_b {l : List T} {a b : Nat} {x y : T}
    (ha : l.get? a = some x) (hb : l.get? b = some y) :
    ((l.set a y).set b x).get? b = some x := by
  have hblt : b < (l.set a y).length := by
    have := lt_length_of_get?_some hb
    simpa [List.length_set] using this
  exact List.get?_set_eq_of_lt x hblt

theorem swap_get?_a {l : List T} {a b : Nat} {x y : T} (hab : a ≠ b)
    (ha : l.get? a = some x) (hb : l.get? b = some y) :
    ((l.set a y).set b x).get? a = some y := by
  rw [List.get?_set_ne x _ (Ne.symm hab)]
  exact List.get?_set_eq_of_lt y (lt_length_of_get?_some ha)

theorem swap_get?_other {l : List T} {a b c : Nat} (x y : T)
    (hca : c ≠ a) (hcb : c ≠ b) :
    ((l.set a y).set b x).get? c = l.get? c := by
  rw [List.get?_set_ne x _ (Ne.symm hcb), List.get?_set_ne y _ (Ne.symm hca)]

theorem set_cons_perm (t : List T) (m : Nat) (x y : T)
    (h : t.get? m = some y) : List.Perm (y :: t.set m x) (x :: t) := by
  induction t generalizing m with
  | nil => simp at h
  | cons a t ih =>
    cases m with
    | zero =>
      simp only [List.get?_cons_zero] at h
      injection h with h
      subst h
      simpa [List.set] using List.Perm.swap x a t
    | succ m =>
      simp only [List.get?_cons_succ] at h
      have ihm := ih m h
      simp only [List.set]
      exact (List.Perm.swap a y (t.set m x)).trans
        ((ihm.cons a).trans (List.Perm.swap x a t))

theorem swap_perm (l : List T) (a b : Nat) (x y : T)
    (ha : l.get? a = some x) (hb : l.get? b = some y) :
    List.Perm ((l.set a y).set b x) l := by
  induction l generalizing a b with
  | nil => simp at ha
  | cons h t ih =>
    cases a with
    | zero =>
      cases b with
      | zero =>
        simp only [List.get?_cons_zero] at ha hb
        injection ha with ha
        injection hb with hb
        subst ha
        subst hb
        simp [List.set]
      | succ b =>
        simp only [List.get?_cons_zero] at ha
        simp only [List.get?_cons_succ] at hb
        injection ha with ha
        subst ha
        simpa [List.set] using set_cons_perm t b h y hb
    | succ a =>
      cases b with
      | zero =>
        simp only [List.get?_cons_succ] at ha
        simp only [List.get?_cons_zero] at hb
        injection hb with hb
        subst hb
        simpa [List.set] using set_cons_perm t a h x ha
      | succ b =>
        simp only [List.get?_cons_succ] at ha hb
        simpa [List.set] using (ih a b ha hb).cons h

theorem siftupLoop_spec (c : Nat) (l : List T) (hcl : c < l.length)
    (hah : almostHeapUp l l.length c) :
    ∃ l', siftupLoop l c = some l' ∧ isMaxHeap l' ∧ List.Perm l' l ∧
      l'.length = l.length := by
  rcases hah with ⟨ha, hb⟩
  by_cases hc0 : c = 0
  · subst hc0
    refine ⟨l, ?_, ?_, List.Perm.refl l, rfl⟩
    · rw [siftupLoop]
      simp
    · intro i x y hipos hilen hx hy
      exact ha i x y hipos hilen (by omega) hx hy
  · obtain ⟨vc, hvc⟩ := get?_some_of_lt hcl (l := l)
    have hpclt : parent c < c := parent_lt (Nat.pos_of_ne_zero hc0)
    have hpclen : parent c < l.length := lt_trans hpclt hcl
    obtain ⟨vp, hvp⟩ := get?_some_of_lt hpclen (l := l)
    have hcp : c ≠ parent c := Ne.symm (ne_of_lt hpclt)
    by_cases hlt : vp < vc
    · -- the parent is smaller: swap and continue from the parent
      have g1 : ((l.set c vp).set (parent c) vc).get? (parent c) = some vc :=
        swap_get?_b hvc hvp
      have g2 : ((l.set c vp).set (parent c) vc).get? c = some vp :=
        swap_get?_a hcp hvc hvp
      have g3 : ∀ i, i ≠ c → i ≠ parent c →
          ((l.set c vp).set (parent c) vc).get? i = l.get? i :=
        fun i h1 h2 => swap_get?_other vc vp h1 h2
      have len2 : ((l.set c vp).set (parent c) vc).length = l.length :=
        swap_length l c (parent c) vc vp
      have heq : siftupLoop l c =
          siftupLoop ((l.set c vp).set (parent c) vc) (parent c) := by
        rw [siftupLoop]
        simp only [if_neg hc0, hvc, hvp, if_pos hlt, listSwap_some hvc hvp]
      have ha2 : ∀ i x y, 0 < i →
          i < ((l.set c vp).set (parent c) vc).length → i ≠ parent c →
          ((l.set c vp).set (parent c) vc).get? i = some x →
          ((l.set c vp).set (parent c) vc).get? (parent i) = some y → x ≤ y := by
        intro i x y hi hilen2 hip hx hy
        have hilen : i < l.length := by rwa [len2] at hilen2
        by_cases hic : i = c
        · subst hic
          rw [g2] at hx
          injection hx with hx
          rw [g1] at hy
          injection hy with hy
          subst hx
          subst hy
          exact le_of_lt hlt
        · have hxl : l.get? i = some x := by rw [← g3 i hic hip]; exact hx
          by_cases hpic : parent i = c
          · rw [hpic, g2] at hy
            injection hy with hy
            subst hy
            exact hb i x vp hi hilen hpic hc0 hxl hvp
          · by_cases hpip : parent i = parent c
            · have hxp : x ≤ vp :=
                ha i x vp hi hilen hic hxl (by rw [hpip]; exact hvp)
              rw [hpip, g1] at hy
              injection hy with hy
              subst hy
              exact le_trans hxp (le_of_lt hlt)
            · have hyl : l.get? (parent i) = some y := by
                rw [← g3 (parent i) hpic hpip]; exact hy
              exact ha i x y hi hilen hic hxl hyl
      have hb2 : ∀ i x z, 0 < i →
          i < ((l.set c vp).set (parent c) vc).length → parent i = parent c →
          parent c ≠ 0 →
          ((l.set c vp).set (parent c) vc).get? i = some x →
          ((l.set c vp).set (parent c) vc).get? (parent (parent c)) = some z →
          x ≤ z := by
        intro i x z hi hilen2 hpip hp0 hx hz
        have hilen : i < l.length := by rwa [len2] at hilen2
        have hpp_lt : parent (parent c) < parent c :=
          parent_lt (Nat.pos_of_ne_zero hp0)
        have hppc : parent (parent c) ≠ c := by omega
        have hppp : parent (parent c) ≠ parent c := ne_of_lt hpp_lt
        have hzl : l.get? (parent (parent c)) = some z := by
          rw [← g3 _ hppc hppp]; exact hz
        have hp_le : vp ≤ z :=
          ha (parent c) vp z (Nat.pos_of_ne_zero hp0) hpclen
            (ne_of_lt hpclt) hvp hzl
        by_cases hic : i = c
        · subst hic
          rw [g2] at hx
          injection hx with hx
          subst hx
          exact hp_le
        · have hip : i ≠ parent c := by
            have := parent_lt hi
            omega
          have hxl : l.get? i = some x := by rw [← g3 i hic hip]; exact hx
          have h1 : x ≤ vp :=
            ha i x vp hi hilen hic hxl (by rw [hpip]; exact hvp)
          exact le_trans h1 hp_le
      obtain ⟨l', hrun, hheap, hperm, hlen⟩ :=
        siftupLoop_spec (parent c) ((l.set c vp).set (parent c) vc)
          (by rw [len2]; exact hpclen) ⟨ha2, hb2⟩
      refine ⟨l', by rw [heq]; exact hrun, hheap,
        hperm.trans (swap_perm l c (parent c) vc vp hvc hvp),
        by rw [hlen, len2]⟩
    · -- the parent already dominates: the array is a heap
      refine ⟨l, ?_, ?_, List.Perm.refl l, rfl⟩
      · rw [siftupLoop]
        simp only [if_neg hc0, hvc, hvp, if_neg hlt]
      · intro i x y hipos hilen hx hy
        by_cases hic : i = c
        · subst hic
          rw [hvc] at hx
          injection hx with hx
          rw [hvp] at hy
          injection hy with hy
          subst hx
          subst hy
          exact le_of_not_lt hlt
        · exact ha i x y hipos hilen hic hx hy
termination_by c
decreasing_by exact hpclt

theorem push_spec (q : PriorityQueue T) (e : T) (hq : heapInv q) :
    ∃ q', q.push e = some q' ∧ heapInv q' ∧
      List.Perm q'.heap (e :: q.heap) := by
  rcases hq with ⟨hni, hheap⟩
  have hcl : q.next_index < (q.heap ++ [e]).length := by
    simp [hni]
  have hah : almostHeapUp (q.heap ++ [e]) (q.heap ++ [e]).length
      q.next_index := by
    constructor
    · intro i x y hi hilen hic hx hy
      have hilen' : i < q.heap.length := by
        simp only [List.length_append, List.length_singleton] at hilen
        omega
      have hxl : q.heap.get? i = some x := by
        rw [List.get?_append hilen'] at hx
        exact hx
      have hplen : parent i < q.heap.length :=
        lt_of_lt_of_le (parent_lt hi) (le_of_lt hilen')
      have hyl : q.heap.get? (parent i) = some y := by
        rw [List.get?_append hplen] at hy
        exact hy
      exact hheap i x y hi hilen' hxl hyl
    · intro i x z hi hilen hpi hc0 hx hz
      exfalso
      have hch := (parent_eq_iff hi).mp hpi
      simp only [List.length_append, List.length_singleton] at hilen
      simp only [left_ch, right_ch, hni] at hch
      omega
  obtain ⟨l', hrun, hmax, hperm, hlen⟩ :=
    siftupLoop_spec q.next_index (q.heap ++ [e]) hcl hah
  refine ⟨{ heap := l', next_index := q.next_index + 1 }, ?_, ⟨?_, hmax⟩, ?_⟩
  · simp only [PriorityQueue.push, hrun]
  · simp [hlen, hni]
  · exact hperm.trans (List.perm_append_singleton e q.heap)

theorem almostHeapDown_swap (l : List T) (n j m : Nat) (vj vm : T)
    (hmn : m < n) (hjm : j < m) (hpm : parent m = j)
    (hvj : l.get? j = some vj) (hvm : l.get? m = some vm)
    (hmax : ∀ i w, 0 < i → i < n → parent i = j → l.get? i = some w → w ≤ vm)
    (hge : vj ≤ vm) (hah : almostHeapDown l n j) :
    almostHeapDown ((l.set m vj).set j vm) n m := by
  rcases hah with ⟨ha, hb⟩
  have hmj : m ≠ j := Ne.symm (ne_of_lt hjm)
  have g1 : ((l.set m vj).set j vm).get? j = some vm := swap_get?_b hvm hvj
  have g2 : ((l.set m vj).set j vm).get? m = some vj := swap_get?_a hmj hvm hvj
  have g3 : ∀ i, i ≠ m → i ≠ j →
      ((l.set m vj).set j vm).get? i = l.get? i :=
    fun i h1 h2 => swap_get?_other vm vj h1 h2
  constructor
  · intro i x y hi hin hpim hx hy
    by_cases hij : i = j
    · subst hij
      have hj0 : i ≠ 0 := Nat.pos_iff_ne_zero.mp hi
      have hpj_lt : parent i < i := parent_lt hi
      have hyl : l.get? (parent i) = some y := by
        rw [← g3 (parent i) (by omega) (ne_of_lt hpj_lt)]
        exact hy
      rw [g1] at hx
      injection hx with hx
      subst hx
      exact hb m vm y (by omega) hmn hpm hj0 hvm hyl
    · by_cases him : i = m
      · subst him
        rw [g2] at hx
        injection hx with hx
        rw [hpm, g1] at hy
        injection hy with hy
        subst hx
        subst hy
        exact hge
      · have hxl : l.get? i = some x := by
          rw [← g3 i him hij]
          exact hx
        by_cases hpij : parent i = j
        · rw [hpij, g1] at hy
          injection hy with hy
          subst hy
          exact hmax i x hi hin hpij hxl
        · have hyl : l.get? (parent i) = some y := by
            rw [← g3 (parent i) hpim hpij]
            exact hy
          exact ha i x y hi hin hpij hxl hyl
  · intro i x z hi hin hpim hm0 hx hz
    rw [hpm] at hz
    rw [g1] at hz
    injection hz with hz
    subst hz
    have hmi : m < i := by
      have := parent_lt hi
      omega
    have hxl : l.get? i = some x := by
      rw [← g3 i (by omega) (by omega)]
      exact hx
    have hyl : ((l.set m vj).set j vm).get? (parent i) = some vj := by
      rw [hpim]
      exact g2
    exact ha i x vm hi hin (by omega) hxl (by rw [hpim]; exact hvm)

theorem heapUpTo_of_max_children (l : List T) (n j : Nat) (vj vm : T)
    (hvj : l.get? j = some vj)
    (hmax : ∀ i w, 0 < i → i < n → parent i = j → l.get? i = some w → w ≤ vm)
    (hlt : vm < vj) (hah : almostHeapDown l n j) : heapUpTo l n := by
  rcases hah with ⟨ha, hb⟩
  intro i x y hi hin hx hy
  by_cases hpij : parent i = j
  · rw [hpij, hvj] at hy
    injection hy with hy
    subst hy
    exact le_of_lt (lt_of_le_of_lt (hmax i x hi hin hpij hx) hlt)
  · exact ha i x y hi hin hpij hx hy

theorem siftdownLoop_spec (l : List T) (n j : Nat) (hjn : j < n)
    (hnl : n ≤ l.length) (hah : almostHeapDown l n j) :
    ∃ l', siftdownLoop l n j = some l' ∧ heapUpTo l' n ∧ List.Perm l' l ∧
      l'.length = l.length ∧ ∀ k, n ≤ k → l'.get? k = l.get? k := by
  by_cases hleaf : is_leaf n j = true
  · refine ⟨l, ?_, ?_, List.Perm.refl l, rfl, fun k hk => rfl⟩
    · rw [siftdownLoop]
      simp [hleaf]
    · rcases hah with ⟨ha, hb⟩
      intro i x y hi hin hx hy
      by_cases hpij : parent i = j
      · exfalso
        have hch := (parent_eq_iff hi).mp hpij
        simp only [is_leaf, Bool.and_eq_true, decide_eq_true_eq] at hleaf
        simp only [left_ch, right_ch] at hch
        omega
      · exact ha i x y hi hin hpij hx hy
  · simp only [is_leaf, Bool.and_eq_true, decide_eq_true_eq] at hleaf
    have hjhalf : j < n / 2 := by omega
    have hl_lt : left_ch j < n := by
      simp only [left_ch]
      omega
    have hln : left_ch j < l.length := lt_of_lt_of_le hl_lt hnl
    obtain ⟨vl, hvl⟩ := get?_some_of_lt hln (l := l)
    obtain ⟨vj, hvj⟩ := get?_some_of_lt (lt_of_lt_of_le hjn hnl) (l := l)
    have hjl : j < left_ch j := by
      simp only [left_ch]
      omega
    have hcont : ∀ m vm, m < n → j < m → parent m = j → l.get? m = some vm →
        (∀ i w, 0 < i → i < n → parent i = j → l.get? i = some w → w ≤ vm) →
        siftdownLoop l n j =
          (if vm < vj then some l
           else siftdownLoop ((l.set m vj).set j vm) n m) →
        ∃ l', siftdownLoop l n j = some l' ∧ heapUpTo l' n ∧
          List.Perm l' l ∧ l'.length = l.length ∧
          ∀ k, n ≤ k → l'.get? k = l.get? k := by
      intro m vm hmn hjm hpm hvm hmax heq
      by_cases hmv : vm < vj
      · rw [if_pos hmv] at heq
        exact ⟨l, heq, heapUpTo_of_max_children l n j vj vm hvj hmax hmv hah,
          List.Perm.refl l, rfl, fun k hk => rfl⟩
      · have hge : vj ≤ vm := le_of_not_lt hmv
        have hah2 := almostHeapDown_swap l n j m vj vm hmn hjm hpm hvj hvm
          hmax hge hah
        obtain ⟨l', hrun, hheap, hperm, hlen, hout⟩ :=
          siftdownLoop_spec ((l.set m vj).set j vm) n m hmn
            (by rw [swap_length]; exact hnl) hah2
        rw [if_neg hmv] at heq
        refine ⟨l', by rw [heq]; exact hrun, hheap,
          hperm.trans (swap_perm l m j vm vj hvm hvj),
          by rw [hlen, swap_length], ?_⟩
        intro k hk
        rw [hout k hk, swap_get?_other vm vj (by omega) (by omega)]
    by_cases hrn : right_ch j < n
    · have hrlen : right_ch j < l.length := lt_of_lt_of_le hrn hnl
      obtain ⟨vr, hvr⟩ := get?_some_of_lt hrlen (l := l)
      by_cases hlr : vl < vr
      · refine hcont (right_ch j) vr hrn (by simp only [right_ch]; omega) ?_ hvr ?_ ?_
        · simp only [parent, right_ch]
          omega
        · intro i w hi hin hpij hw
          rcases (parent_eq_iff hi).mp hpij with hil | hir
          · subst hil
            rw [hvl] at hw
            injection hw with hw
            subst hw
            exact le_of_lt hlr
          · subst hir
            rw [hvr] at hw
            injection hw with hw
            subst hw
            exact le_refl _
        · rw [siftdownLoop]
          simp only [is_leaf, Bool.and_eq_true, decide_eq_true_eq]
          rw [if_neg (by omega)]
          simp only [if_pos hrn, hvl, hvr, decide_eq_true hlr, hvj]
          split
          · rename_i vm vi heq1 heq2
            rw [hvr] at heq1
            injection heq1 with heq1
            injection heq2 with heq2
            subst heq1
            subst heq2
            rfl
          · rename_i hfail
            exact (hfail vr vj hvr rfl).elim
      · refine hcont (left_ch j) vl hl_lt hjl ?_ hvl ?_ ?_
        · simp only [parent, left_ch]
          omega
        · intro i w hi hin hpij hw
          rcases (parent_eq_iff hi).mp hpij with hil | hir
          · subst hil
            rw [hvl] at hw
            injection hw with hw
            subst hw
            exact le_refl _
          · subst hir
            rw [hvr] at hw
            injection hw with hw
            subst hw
            exact le_of_not_lt hlr
        · rw [siftdownLoop]
          simp only [is_leaf, Bool.and_eq_true, decide_eq_true_eq]
          rw [if_neg (by omega)]
          simp only [if_pos hrn, hvl, hvr, decide_eq_false hlr, hvj]
          split
          · rename_i vm vi heq1 heq2
            rw [hvl] at heq1
            injection heq1 with heq1
            injection heq2 with heq2
            subst heq1
            subst heq2
            rfl
          · rename_i hfail
            exact (hfail vl vj hvl rfl).elim
    · refine hcont (left_ch j) vl hl_lt hjl ?_ hvl ?_ ?_
      · simp only [parent, left_ch]
        omega
      · intro i w hi hin hpij hw
        rcases (parent_eq_iff hi).mp hpij with hil | hir
        · subst hil
          rw [hvl] at hw
          injection hw with hw
          subst hw
          exact le_refl _
        · exfalso
          subst hir
          exact hrn hin
      · rw [siftdownLoop]
        simp only [is_leaf, Bool.and_eq_true, decide_eq_true_eq]
        rw [if_neg (by omega)]
        simp only [if_neg hrn, hvl, hvj]
        split
        · rename_i vm vi heq1 heq2
          rw [hvl] at heq1
          injection heq1 with heq1
          injection heq2 with heq2
          subst heq1
          subst heq2
          rfl
        · rename_i hfail
          exact (hfail vl vj hvl rfl).elim
termination_by n - j
decreasing_by omega

theorem heap_root_max {l : List T} (hl : isMaxHeap l) {v0 : T}
    (h0 : l.get? 0 = some v0) : ∀ i x, l.get? i = some x → x ≤ v0 := by
  intro i
  induction i using Nat.strong_induction_on with
  | _ i ih =>
    intro x hx
    rcases Nat.eq_zero_or_pos i with h | hpos
    · subst h
      rw [h0] at hx
      injection hx with hx
      exact le_of_eq hx.symm
    · have hilen : i < l.length := lt_length_of_get?_some hx
      have hplt : parent i < i := parent_lt hpos
      obtain ⟨y, hy⟩ := get?_some_of_lt (lt_trans hplt hilen) (l := l)
      exact le_trans (hl i x y hpos hilen hx hy) (ih (parent i) hplt y hy)

theorem poll_empty (q : PriorityQueue T) (h : q.heap = []) :
    q.poll = some (none, q) := by
  simp [PriorityQueue.poll, PriorityQueue.is_empty, h]

theorem poll_spec (q : PriorityQueue T) (hq : heapInv q) (hne : q.heap ≠ []) :
    ∃ x q', q.poll = some (some x, q') ∧ heapInv q' ∧
      List.Perm (x :: q'.heap) q.heap ∧ ∀ y ∈ q.heap, y ≤ x := by
  obtain ⟨qh, qn⟩ := q
  rcases hq with ⟨hni, hheap⟩
  simp only at hni hheap hne ⊢
  subst hni
  have hlen : 0 < qh.length := List.length_pos.mpr hne
  obtain ⟨v0, hv0⟩ := get?_some_of_lt hlen (l := qh)
  have hnilt : qh.length - 1 < qh.length := by omega
  obtain ⟨vlast, hvlast⟩ := get?_some_of_lt hnilt (l := qh)
  have hswap : listSwap qh 0 (qh.length - 1) =
      some ((qh.set 0 vlast).set (qh.length - 1) v0) :=
    listSwap_some hv0 hvlast
  have hmax := heap_root_max hheap hv0
  have hemp : qh.isEmpty = false := by
    simp [List.isEmpty_iff, hne]
  by_cases h1 : qh.length = 1
  · obtain ⟨a, ha⟩ := List.length_eq_one.mp h1
    subst ha
    simp only [List.get?_cons_zero] at hv0
    injection hv0 with hv0
    subst hv0
    refine ⟨a, { heap := [], next_index := 0 }, ?_, ⟨rfl, ?_⟩, ?_, ?_⟩
    · simp [PriorityQueue.poll, PriorityQueue.is_empty, listSwap]
    · intro i x y hi hilen hx hy
      exact absurd hilen (by simp)
    · exact List.Perm.refl _
    · intro y hy
      simp only [List.mem_singleton] at hy
      subst hy
      exact le_refl _
  · have hge2 : 2 ≤ qh.length := by
      cases qh with
      | nil => exact absurd rfl hne
      | cons a t =>
        simp only [List.length_cons] at h1 ⊢
        omega
    have hni1 : 1 ≤ qh.length - 1 := by omega
    have hne0 : (0 : Nat) ≠ qh.length - 1 := by omega
    have g1 : ((qh.set 0 vlast).set (qh.length - 1) v0).get? (qh.length - 1) =
        some v0 := swap_get?_b hv0 hvlast
    have g3 : ∀ i, i ≠ 0 → i ≠ qh.length - 1 →
        ((qh.set 0 vlast).set (qh.length - 1) v0).get? i = qh.get? i :=
      fun i hi1 hi2 => swap_get?_other v0 vlast hi1 hi2
    have hah : almostHeapDown ((qh.set 0 vlast).set (qh.length - 1) v0)
        (qh.length - 1) 0 := by
      constructor
      · intro i x y hi hin hpi hx hy
        have hplt : parent i < i := parent_lt hi
        have hxl : qh.get? i = some x := by
          rw [← g3 i (by omega) (by omega)]
          exact hx
        have hyl : qh.get? (parent i) = some y := by
          rw [← g3 (parent i) hpi (by omega)]
          exact hy
        exact hheap i x y hi (by omega) hxl hyl
      · intro i x z hi hin hpi h0
        exact absurd rfl h0
    obtain ⟨l2, hrun, hup, hperm, hlen2, hout⟩ :=
      siftdownLoop_spec ((qh.set 0 vlast).set (qh.length - 1) v0)
        (qh.length - 1) 0 (by omega)
        (by rw [swap_length]; omega) hah
    have hlenl2 : l2.length = qh.length := by
      rw [hlen2, swap_length]
    have hl2last : l2.get? (qh.length - 1) = some v0 := by
      rw [hout (qh.length - 1) (le_refl _)]
      exact g1
    have hglast : l2.getLast? = some v0 := by
      rw [List.getLast?_eq_getElem? l2, ← List.get?_eq_getElem?, hlenl2]
      exact hl2last
    have hpoll : PriorityQueue.poll { heap := qh, next_index := qh.length } =
        some (l2.getLast?,
          { heap := l2.dropLast, next_index := qh.length - 1 }) := by
      simp only [PriorityQueue.poll, PriorityQueue.is_empty]
      rw [if_neg (by simp [hemp])]
      simp only [hswap, if_pos (by omega : qh.length - 1 ≠ 0), hrun]
    refine ⟨v0, { heap := l2.dropLast, next_index := qh.length - 1 },
      ?_, ⟨?_, ?_⟩, ?_, ?_⟩
    · rw [hpoll, hglast]
    · simp [List.length_dropLast, hlenl2]
    · intro i x y hi hilen hx hy
      simp only [List.length_dropLast, hlenl2] at hilen
      rw [List.dropLast_eq_take] at hx hy
      rw [List.get?_take (by omega)] at hx
      rw [List.get?_take (by have := parent_lt hi; omega)] at hy
      exact hup i x y hi (by omega) hx hy
    · have hl2eq : l2.dropLast ++ [v0] = l2 :=
        List.dropLast_append_getLast? v0 (by simp [Option.mem_def, hglast])
      have hstep : List.Perm (v0 :: l2.dropLast) l2 := by
        conv_rhs => rw [← hl2eq]
        exact (List.perm_append_singleton v0 l2.dropLast).symm
      exact (hstep.trans hperm).trans (swap_perm qh 0 (qh.length - 1) v0 vlast hv0 hvlast)
    · intro y hy
      obtain ⟨i, hi⟩ := List.mem_iff_get?.mp hy
      exact hmax i y hi

theorem drainFuel_spec (fuel : Nat) (q : PriorityQueue T) (hq : heapInv q)
    (hf : q.heap.length ≤ fuel) :
    ∃ out, PriorityQueue.drainFuel fuel q = some out ∧
      List.Perm out q.heap ∧ List.Sorted (fun a b : T => b ≤ a) out := by
  induction fuel generalizing q with
  | zero =>
    have hq0 : q.heap = [] := List.eq_nil_of_length_eq_zero (by omega)
    refine ⟨[], ?_, by simp [hq0], List.sorted_nil⟩
    simp [PriorityQueue.drainFuel, PriorityQueue.is_empty, hq0]
  | succ fuel ih =>
    by_cases hemp : q.heap = []
    · refine ⟨[], ?_, by simp [hemp], List.sorted_nil⟩
      simp only [PriorityQueue.drainFuel, PriorityQueue.next,
        poll_empty q hemp]
    · obtain ⟨x, q', hpoll, hinv', hperm, hmax⟩ := poll_spec q hq hemp
      have hlen' : q'.heap.length ≤ fuel := by
        have hle := hperm.length_eq
        simp only [List.length_cons] at hle
        omega
      obtain ⟨out, hdrain, hperm', hsort⟩ := ih q' hinv' hlen'
      refine ⟨x :: out, ?_, (hperm'.cons x).trans hperm, ?_⟩
      · simp only [PriorityQueue.drainFuel, PriorityQueue.next, hpoll, hdrain]
      · rw [List.sorted_cons]
        refine ⟨?_, hsort⟩
        intro b hb
        have hbq : b ∈ q.heap :=
          hperm.subset (List.mem_cons_of_mem x (hperm'.mem_iff.mp hb))
        exact hmax b hbq

theorem pushAll_spec (xs : List T) (q : PriorityQueue T) (hq : heapInv q) :
    ∃ q', pushAll q xs = some q' ∧ heapInv q' ∧
      List.Perm q'.heap (xs ++ q.heap) := by
  induction xs generalizing q with
  | nil => exact ⟨q, rfl, hq, by simp⟩
  | cons x xs ih =>
    obtain ⟨q1, hpush, hinv1, hperm1⟩ := push_spec q x hq
    obtain ⟨q', hrest, hinv', hperm'⟩ := ih q1 hinv1
    refine ⟨q', ?_, hinv', ?_⟩
    · simp only [pushAll, hpush, hrest]
    · exact hperm'.trans ((List.Perm.append_left xs hperm1).trans
        List.perm_middle)

/-- C8: poll on an empty priority queue returns `None` and leaves the
queue unchanged; poll on a non-empty priority queue (satisfying the
representation invariant, as every queue built by the public operations
does) returns `Some` of a maximum element of the contents and decreases
`len` by exactly one. -/
theorem C8_poll_functional_correctness (q : PriorityQueue T)
    (hq : heapInv q) :
    (q.heap = [] → q.poll = some (none, q)) ∧
    (q.heap ≠ [] → ∃ x q', q.poll = some (some x, q') ∧ x ∈ q.heap ∧
      (∀ y ∈ q.heap, y ≤ x) ∧ q'.len + 1 = q.len) := by
  refine ⟨fun h => poll_empty q h, fun hne => ?_⟩
  obtain ⟨x, q', hpoll, hinv', hperm, hmax⟩ := poll_spec q hq hne
  refine ⟨x, q', hpoll, hperm.subset (List.mem_cons_self x q'.heap),
    hmax, ?_⟩
  have hle := hperm.length_eq
  simp only [List.length_cons] at hle
  simp only [PriorityQueue.len]
  omega

/-- Witness for C8: applies the theorem to the concrete max-heap queue
holding 3, 1, 2 over the integers. -/
theorem C8_poll_functional_correctness_witness :
    ∃ x q', ({ heap := [(3 : Int), 1, 2], next_index := 3 } :
        PriorityQueue Int).poll = some (some x, q') ∧
      x ∈ ({ heap := [(3 : Int), 1, 2], next_index := 3 } :
        PriorityQueue Int).heap ∧
      (∀ y ∈ ({ heap := [(3 : Int), 1, 2], next_index := 3 } :
        PriorityQueue Int).heap, y ≤ x) ∧
      q'.len + 1 = ({ heap := [(3 : Int), 1, 2], next_index := 3 } :
        PriorityQueue Int).len :=
  (C8_poll_functional_correctness
    { heap := [(3 : Int), 1, 2], next_index := 3 }
    ⟨rfl, by
      intro i x y hi hin hx hy
      simp only [List.length_cons, List.length_nil] at hin
      interval_cases i <;> simp_all [parent] <;> omega⟩).2 (by simp)

/-- C9: `new`, `with_capacity`, `push` and `poll` all preserve the
representation invariant: `next_index` equals the heap vector's length
and the vector satisfies the max-heap ordering. -/
theorem C9_operations_preserve_invariant :
    heapInv (PriorityQueue.new T) ∧
    (∀ capacity, heapInv (PriorityQueue.with_capacity T capacity)) ∧
    (∀ (q : PriorityQueue T) (e : T), heapInv q →
      ∃ q', q.push e = some q' ∧ heapInv q') ∧
    (∀ q : PriorityQueue T, heapInv q →
      ∃ r q', q.poll = some (r, q') ∧ heapInv q') := by
  refine ⟨⟨rfl, ?_⟩, fun capacity => ⟨rfl, ?_⟩, ?_, ?_⟩
  · intro i x y hi hin hx hy
    exact absurd hin (by simp [PriorityQueue.new])
  · intro i x y hi hin hx hy
    exact absurd hin (by simp [PriorityQueue.with_capacity])
  · intro q e hq
    obtain ⟨q', h1, h2, -⟩ := push_spec q e hq
    exact ⟨q', h1, h2⟩
  · intro q hq
    by_cases hemp : q.heap = []
    · exact ⟨none, q, poll_empty q hemp, hq⟩
    · obtain ⟨x, q', h1, h2, -, -⟩ := poll_spec q hq hemp
      exact ⟨some x, q', h1, h2⟩

/-- Witness for C9: the invariant of the fresh integer queue, and the
preservation through a concrete push. -/
theorem C9_operations_preserve_invariant_witness :
    heapInv (PriorityQueue.new Int) ∧
    (∃ q', (PriorityQueue.new Int).push 5 = some q' ∧ heapInv q') :=
  ⟨(C9_operations_preserve_invariant (T := Int)).1,
    (C9_operations_preserve_invariant (T := Int)).2.2.1
      (PriorityQueue.new Int) 5
      (C9_operations_preserve_invariant (T := Int)).1⟩

/-- C10: pushing any finite list of elements of a linearly ordered type
into a fresh priority queue and then exhausting the queue through its
Iterator instance (whose `next` is `poll`, run here with any sufficient
fuel, so the loop always ends because the queue is empty) yields exactly
the pushed multiset, sorted in non-increasing order. -/
theorem C10_heapsort_round_trip (xs : List T) (fuel : Nat)
    (hf : xs.length ≤ fuel) :
    ∃ q out, pushAll (PriorityQueue.new T) xs = some q ∧
      PriorityQueue.drainFuel fuel q = some out ∧ List.Perm out xs ∧
      List.Sorted (fun a b : T => b ≤ a) out := by
  obtain ⟨q, hpush, hinv, hperm⟩ := pushAll_spec xs (PriorityQueue.new T)
    ⟨rfl, by intro i x y hi hin hx hy; exact absurd hin (by simp [PriorityQueue.new])⟩
  have hperm' : List.Perm q.heap xs := by
    simpa [PriorityQueue.new] using hperm
  have hlen : q.heap.length = xs.length := hperm'.length_eq
  obtain ⟨out, hdrain, hperm2, hsort⟩ := drainFuel_spec fuel q hinv (by omega)
  exact ⟨q, out, hpush, hdrain, hperm2.trans hperm', hsort⟩

/-- Witness for C10: heapsort round trip on the concrete integer list
2, 1, 3 with fuel 3. -/
theorem C10_heapsort_round_trip_witness :
    ∃ q out, pushAll (PriorityQueue.new Int) [2, 1, 3] = some q ∧
      PriorityQueue.drainFuel 3 q = some out ∧ List.Perm out [2, 1, 3] ∧
      List.Sorted (fun a b : Int => b ≤ a) out :=
  C10_heapsort_round_trip [2, 1, 3] 3 (by simp)

end priority_queue
